import Mathlib

/-!
Verification of the libMesh DOF-indexing, element-topology, reference-element
and error-estimation core, as a shallow embedding in Lean 4.

Sources embedded:
- src/src/geom/reference_elem.C        (ReferenceElem::get and its lookup table)
- src/src/geom/cell_pyramid.C          (Pyramid::key / low_order_key and static tables)
- src/src/error_estimation/adjoint_refinement_estimator.C
  (AdjointRefinementEstimator::estimate_error and JumpErrorEstimator::estimate_error)
- src/tests/base/dof_object_test.h     (DofObject behavioural contract)

Parts of the repository that the claims depend on but whose implementation
files are not present under src/ (DofObject itself, Elem::compute_key,
Pyramid5::side_nodes_map, MeshRefinement::uniformly_refine/coarsen) are
modelled from the specification; each such definition carries a doc comment
starting with "Modelled from the spec:".
-/

/-! ## Reference Element Cache (src/src/geom/reference_elem.C) -/

/-- The element-type enumeration, restricted to the types named in
src/src/geom/reference_elem.C: the 22 types entered into `ref_elem_file` by
`init_ref_elem_table`, the three shell types aliased by `ReferenceElem::get`,
a few types with no reference data, and the `INVALID_ELEM` sentinel. -/
inductive ElemType where
  | EDGE2 | EDGE3 | EDGE4
  | TRI3 | TRI6 | TRI7
  | QUAD4 | QUAD8 | QUAD9
  | HEX8 | HEX20 | HEX27
  | TET4 | TET10 | TET14
  | PRISM6 | PRISM15 | PRISM18 | PRISM20 | PRISM21
  | PYRAMID5 | PYRAMID13 | PYRAMID14 | PYRAMID18
  | TRISHELL3 | QUADSHELL4 | QUADSHELL8
  | NODEELEM | TRI3SUBDIVISION | INFQUAD4 | INFHEX8
  | INVALID_ELEM
deriving DecidableEq, Repr, Fintype

open ElemType

/-- Whether `init_ref_elem_table` installs an entry of `ref_elem_file` (and
hence a non-null `ref_elem_map` slot) for this type: exactly the 22
assignments at reference_elem.C lines 175-206. -/
def hasRefElemData : ElemType → Bool
  | EDGE2 | EDGE3 | EDGE4 => true
  | TRI3 | TRI6 | TRI7 => true
  | QUAD4 | QUAD8 | QUAD9 => true
  | HEX8 | HEX20 | HEX27 => true
  | TET4 | TET10 | TET14 => true
  | PRISM6 | PRISM15 | PRISM18 | PRISM20 | PRISM21 => true
  | PYRAMID5 | PYRAMID13 | PYRAMID14 | PYRAMID18 => true
  | _ => false

/-- The shell-to-base aliasing performed at the top of `ReferenceElem::get`
(reference_elem.C lines 242-252): shell element types look up the
corresponding non-shell base type; every other type is its own base type. -/
def refBaseType : ElemType → ElemType
  | TRISHELL3 => TRI3
  | QUADSHELL4 => QUAD4
  | QUADSHELL8 => QUAD8
  | t => t

/-- Whether the type is one of the three shell types aliased by
`ReferenceElem::get`. -/
def isShellType : ElemType → Bool
  | TRISHELL3 | QUADSHELL4 | QUADSHELL8 => true
  | _ => false

namespace ReferenceElem

/-- `ReferenceElem::get` (reference_elem.C lines 240-263): compute the base
type, then fail fatally (`libmesh_error_msg_if`) when the base type has no
reference data or the requested type is `INVALID_ELEM`; otherwise return the
cached reference element for the base type (identified here by its type). -/
def get (type_in : ElemType) : Except String ElemType :=
  let base_type := refBaseType type_in
  if hasRefElemData base_type = false ∨ type_in = INVALID_ELEM then
    Except.error "No reference elem data available for ElemType"
  else
    Except.ok base_type

end ReferenceElem

/-! ## Pyramid side keys (src/src/geom/cell_pyramid.C) -/

/-- Modelled from the spec: `Pyramid5::side_nodes_map` (cell_pyramid5.C is not
under src/).  Sides 0-3 are the triangular faces, each consisting of two
adjacent base vertices and the apex (node 4); side 4 is the quadrilateral base
at z=0.  The assignment is consistent with the tables that are in src/:
`Pyramid::edge_sides_map` (edge 0 = nodes 0-1 lies on sides {0,4}, etc.) and
`Pyramid::_master_points` (nodes 0-3 on the z=0 plane, node 4 the apex). -/
def pyramidSideNodesMap : Fin 5 → List (Fin 5)
  | 0 => [0, 1, 4]
  | 1 => [1, 2, 4]
  | 2 => [2, 3, 4]
  | 3 => [3, 0, 4]
  | 4 => [0, 3, 2, 1]

/-- An (arbitrary, fixed) accumulator-style hash over a list of node ids,
standing in for the Jenkins `Utility::hashword` used by `Elem::compute_key`. -/
def hashNodeIds (ns : List Nat) : Nat :=
  ns.foldl (fun acc n => acc * 1000003 + n + 1) 7

/-- Modelled from the spec: `Elem::compute_key` (elem.h is not under src/),
"an order-independent hash/key for a given side's node set": the node ids are
put into sorted order and then hashed. -/
def compute_key (ns : List Nat) : Nat :=
  hashNodeIds (ns.insertionSort (· ≤ ·))

/-- A pyramid element, identified for side-key purposes by the global ids of
its five vertex nodes (`Pyramid::key` only reads nodes 0-4, via
`Pyramid5::side_nodes_map`). -/
structure Pyramid where
  node_id : Fin 5 → Nat

/-- The global node ids of side `s`, in table order. -/
def Pyramid.sideNodeIds (p : Pyramid) (s : Fin 5) : List Nat :=
  (pyramidSideNodesMap s).map p.node_id

/-- `Pyramid::key(s)` (cell_pyramid.C lines 77-100): for the triangular sides
0-3, `compute_key` of the three mapped node ids; for the quad base (side 4),
`compute_key` of the four mapped node ids. -/
def Pyramid.key (p : Pyramid) (s : Fin 5) : Nat :=
  compute_key (p.sideNodeIds s)

/-- `Pyramid::low_order_key(s)` (cell_pyramid.C lines 104-127): identical
computation to `Pyramid::key` for this element family. -/
def Pyramid.low_order_key (p : Pyramid) (s : Fin 5) : Nat :=
  compute_key (p.sideNodeIds s)

theorem compute_key_perm {l₁ l₂ : List Nat} (h : l₁.Perm l₂) :
    compute_key l₁ = compute_key l₂ := by
  unfold compute_key
  congr 1
  have hp : (l₁.insertionSort (· ≤ ·)).Perm (l₂.insertionSort (· ≤ ·)) :=
    ((List.perm_insertionSort _ l₁).trans h).trans
      (List.perm_insertionSort _ l₂).symm
  exact List.eq_of_perm_of_sorted hp
    (List.sorted_insertionSort (· ≤ ·) l₁) (List.sorted_insertionSort (· ≤ ·) l₂)

/-- Claim C7: a pyramid side key is invariant under any renumbering of the
side's nodes (in particular the cyclic or reflective renumberings two abutting
elements might use): two pyramids whose sides carry the same node ids in any
order compute identical keys and low-order keys; triangular sides (s = 0..3)
hash exactly their 3 node ids and the quadrilateral base (s = 4) hashes
exactly its 4 node ids. -/
theorem C7_pyramid_key_side_invariant :
    (∀ (p q : Pyramid) (s t : Fin 5),
      (p.sideNodeIds s).Perm (q.sideNodeIds t) →
        p.key s = q.key t ∧ p.low_order_key s = q.low_order_key t) ∧
    (∀ (p : Pyramid) (s : Fin 5), s.val < 4 →
      (p.sideNodeIds s).length = 3 ∧ p.key s = compute_key (p.sideNodeIds s)) ∧
    (∀ (p : Pyramid),
      (p.sideNodeIds 4).length = 4 ∧ p.key 4 = compute_key (p.sideNodeIds 4)) := by
  refine ⟨fun p q s t h => ⟨compute_key_perm h, compute_key_perm h⟩, ?_, ?_⟩
  · intro p s hs
    fin_cases s
    · exact ⟨rfl, rfl⟩
    · exact ⟨rfl, rfl⟩
    · exact ⟨rfl, rfl⟩
    · exact ⟨rfl, rfl⟩
    · exact absurd hs (by decide)
  · intro p
    exact ⟨rfl, rfl⟩

/-- Witness for C7: two concrete pyramids sharing a triangular side with
cyclically renumbered nodes compute the same key, and the base-side case is
exercised concretely as well. -/
theorem C7_pyramid_key_side_invariant_witness :
    (Pyramid.key ⟨fun i => [10, 11, 12, 13, 14].get i⟩ 0 =
      Pyramid.key ⟨fun i => [14, 99, 98, 10, 11].get i⟩ 3) ∧
    (Pyramid.sideNodeIds ⟨fun i => [10, 11, 12, 13, 14].get i⟩ 4).length = 4 := by
  constructor
  · exact (C7_pyramid_key_side_invariant.1
      ⟨fun i => [10, 11, 12, 13, 14].get i⟩
      ⟨fun i => [14, 99, 98, 10, 11].get i⟩ 0 3 (by decide)).1
  · exact (C7_pyramid_key_side_invariant.2.2 ⟨fun i => [10, 11, 12, 13, 14].get i⟩).1

/-- Claim C9: `ReferenceElem::get(type)` fails with a fatal, clearly-messaged
error exactly when the requested element type has no reference data or is the
sentinel `INVALID_ELEM`; for the shell types TRISHELL3, QUADSHELL4, QUADSHELL8
it instead succeeds and returns the reference element of the corresponding
non-shell base type (TRI3, QUAD4, QUAD8). -/
theorem C9_reference_elem_get_spec :
    (∀ t : ElemType, isShellType t = false →
      ((ReferenceElem.get t).isOk = false ↔
        (hasRefElemData t = false ∨ t = INVALID_ELEM))) ∧
    ReferenceElem.get TRISHELL3 = Except.ok TRI3 ∧
    ReferenceElem.get QUADSHELL4 = Except.ok QUAD4 ∧
    ReferenceElem.get QUADSHELL8 = Except.ok QUAD8 := by
  refine ⟨?_, rfl, rfl, rfl⟩
  decide

/-! ## DofObject (behavioural contract from src/tests/base/dof_object_test.h;
implementation dof_object.h/C is not under src/, so the data structure is
modelled from the spec) -/

/-- The invalid-id sentinel `DofObject::invalid_id`: the maximal value of the
32-bit `dof_id_type`. -/
def invalid_id : Nat := 4294967295

/-- `sizeof(dof_id_type)`: one extra-integer slot is 4 bytes wide. -/
def slotBytes : Nat := 4

/-- The `ncv_magic` packing constant: one packed per-group entry stores
`n_vars * ncv_magic + n_comp`. -/
def ncv_magic : Nat := 256

/-- Modelled from the spec: the DofObject entity record (dof_object.h is not
under src/).  `idx_buf` is the packed per-(system, variable-group) index
buffer exercised by `set_buffer`/`dof_number` ("a compact per-(system,
variable-group) DOF index table"): entry 0 holds the system count, entries
1..n_systems-1 hold the start offset of each later system's group data, and
each group contributes the pair (`n_vars*ncv_magic + n_comp`, `vg_dof_base`).
`extra_bytes` is the flat extra-data slot array ("an optional flat array of
extra integers ... independent of the DOF numbering"), held as raw bytes with
`slotBytes` bytes per slot so that `set_extra_datum`/`get_extra_datum` can
reinterpret runs of slots byte-exactly (memcpy semantics). -/
structure DofObject where
  idx_buf : List Nat
  extra_bytes : List Nat

/-- `DofObject::set_buffer`: replace the packed index buffer. -/
def DofObject.set_buffer (d : DofObject) (buf : List Nat) : DofObject :=
  { d with idx_buf := buf }

/-- `DofObject::n_systems`: the first buffer entry (0 for an empty buffer). -/
def DofObject.n_systems (d : DofObject) : Nat := d.idx_buf.headD 0

/-- Start offset of system `s`'s group data in the packed buffer: the header
occupies the first `n_systems` entries, so system 0 starts right after it;
later systems read their start offset from header entry `s`. -/
def bufStartIdx (buf : List Nat) (s : Nat) : Nat :=
  if s = 0 then buf.headD 0 else buf.getD s 0

/-- One-past-the-end offset of system `s`'s group data: the next system's
start offset, or the buffer length for the last system. -/
def bufEndIdx (buf : List Nat) (s : Nat) : Nat :=
  if s + 1 = buf.headD 0 then buf.length else buf.getD (s + 1) 0

/-- `DofObject::n_var_groups(s)`: each group occupies two packed entries. -/
def DofObject.n_var_groups (d : DofObject) (s : Nat) : Nat :=
  (bufEndIdx d.idx_buf s - bufStartIdx d.idx_buf s) / 2

/-- `DofObject::n_vars(s, vg)`: unpacked from the group's first entry. -/
def DofObject.n_vars_group (d : DofObject) (s vg : Nat) : Nat :=
  d.idx_buf.getD (bufStartIdx d.idx_buf s + 2 * vg) 0 / ncv_magic

/-- `DofObject::n_comp_group(s, vg)`: unpacked from the group's first entry. -/
def DofObject.n_comp_group (d : DofObject) (s vg : Nat) : Nat :=
  d.idx_buf.getD (bufStartIdx d.idx_buf s + 2 * vg) 0 % ncv_magic

/-- `DofObject::vg_dof_base(s, vg)`: the group's second packed entry. -/
def DofObject.vg_dof_base (d : DofObject) (s vg : Nat) : Nat :=
  d.idx_buf.getD (bufStartIdx d.idx_buf s + 2 * vg + 1) 0

/-- `DofObject::n_vars(s)`: total variable count over all groups. -/
def DofObject.n_vars (d : DofObject) (s : Nat) : Nat :=
  ((List.range (d.n_var_groups s)).map (fun vg => d.n_vars_group s vg)).sum

/-- Locate the variable group containing variable `var` of system `s`, and the
variable's index within that group, by scanning the groups in order and
accumulating their variable counts (`DofObject::var_to_vg_and_vig`). -/
def DofObject.var_to_vg_and_vig (d : DofObject) (s var : Nat) :
    Option (Nat × Nat) :=
  match (List.range (d.n_var_groups s)).foldl
    (fun st vg =>
      match st with
      | Sum.inl acc =>
          if var < acc + d.n_vars_group s vg then Sum.inr (vg, var - acc)
          else Sum.inl (acc + d.n_vars_group s vg)
      | Sum.inr r => Sum.inr r)
    (Sum.inl 0) with
  | Sum.inr r => some r
  | Sum.inl _ => none

/-- `DofObject::dof_number(s, var, comp)`: find the variable's group and index
within group, read the group's DOF base from the packed buffer, and return
`base + vig * n_comp_group + comp`; if the base is the invalid sentinel the
whole answer is the invalid sentinel.  `none` models the debug assertion
firing for an out-of-range variable. -/
def DofObject.dof_number (d : DofObject) (s var comp : Nat) : Option Nat :=
  match d.var_to_vg_and_vig s var with
  | none => none
  | some (vg, vig) =>
      let base := d.vg_dof_base s vg
      if base = invalid_id then some invalid_id
      else some (base + vig * d.n_comp_group s vg + comp)

/-- Little-endian decomposition of a value into `k` bytes (the byte image a
memcpy of a `k`-byte unsigned value produces). -/
def natToBytesLE : Nat → Nat → List Nat
  | 0, _ => []
  | k + 1, v => v % 256 :: natToBytesLE k (v / 256)

/-- Little-endian recomposition of a byte run into a value. -/
def bytesToNatLE : List Nat → Nat
  | [] => 0
  | b :: bs => b + 256 * bytesToNatLE bs

/-- Overwrite `bs.length` bytes of `l` starting at byte offset `off` (the
memcpy-into-slot-array primitive of the extra-datum design note). -/
def writeBytes (l : List Nat) (off : Nat) (bs : List Nat) : List Nat :=
  l.take off ++ bs ++ l.drop (off + bs.length)

/-- Read `len` bytes of `l` starting at byte offset `off`. -/
def readBytes (l : List Nat) (off len : Nat) : List Nat :=
  (l.drop off).take len

/-- The byte image of one invalid-sentinel-filled slot. -/
def invalidSlotBytes : List Nat := natToBytesLE slotBytes invalid_id

/-- `DofObject::n_extra_integers`: the current slot count. -/
def DofObject.n_extra_integers (d : DofObject) : Nat :=
  d.extra_bytes.length / slotBytes

/-- Modelled from the spec: `DofObject::add_extra_integers(n)` resizes the
extra-data slot array to length `n`, "preserving existing values,
default-filling new ones with the invalid sentinel". -/
def DofObject.add_extra_integers (d : DofObject) (n : Nat) : DofObject :=
  { d with extra_bytes :=
      d.extra_bytes.take (n * slotBytes) ++
        (List.replicate (n - d.n_extra_integers) invalidSlotBytes).flatten }

/-- `DofObject::set_extra_integer(i, v)`: write slot `i`. -/
def DofObject.set_extra_integer (d : DofObject) (i v : Nat) : DofObject :=
  { d with extra_bytes :=
      writeBytes d.extra_bytes (i * slotBytes) (natToBytesLE slotBytes v) }

/-- `DofObject::get_extra_integer(i)`: read slot `i`. -/
def DofObject.get_extra_integer (d : DofObject) (i : Nat) : Nat :=
  bytesToNatLE (readBytes d.extra_bytes (i * slotBytes) slotBytes)

/-- Modelled from the spec: `DofObject::set_extra_datum<T>(i, value)`
reinterprets a run of `ceil(sizeof(T)/sizeof(slot))` contiguous slots starting
at slot `i` as a `T`, implemented as an explicit byte-copy; the `T` value is
represented here by its `sizeof(T)`-byte image `bs`. -/
def DofObject.set_extra_datum (d : DofObject) (i : Nat) (bs : List Nat) :
    DofObject :=
  { d with extra_bytes := writeBytes d.extra_bytes (i * slotBytes) bs }

/-- Modelled from the spec: `DofObject::get_extra_datum<T>(i)` reads back the
`sizeof(T)`-byte image stored starting at slot `i`. -/
def DofObject.get_extra_datum (d : DofObject) (i len : Nat) : List Nat :=
  readBytes d.extra_bytes (i * slotBytes) len

/-- The per-system group metadata, decoded from the packed buffer: for each
system the list of (packed `n_vars*ncv_magic + n_comp`, `vg_dof_base`)
pairs. -/
def decodeSystems (buf : List Nat) : List (List (Nat × Nat)) :=
  (List.range (buf.headD 0)).map fun s =>
    (List.range ((bufEndIdx buf s - bufStartIdx buf s) / 2)).map fun g =>
      (buf.getD (bufStartIdx buf s + 2 * g) 0,
       buf.getD (bufStartIdx buf s + 2 * g + 1) 0)

/-- Re-encode per-system group metadata into the packed buffer layout. -/
def encodeSystems (sys : List (List (Nat × Nat))) : List Nat :=
  match sys with
  | [] => []
  | _ =>
      let ns := sys.length
      let body := sys.map fun gs => gs.foldr (fun p acc => p.1 :: p.2 :: acc) []
      (ns :: (List.range (ns - 1)).map
          (fun k => ns + ((body.take (k + 1)).map List.length).sum)) ++
        body.flatten

/-- Modelled from the spec: `DofObject::add_system()` "appends one more
system's worth of (initially empty) variable-group metadata; must not disturb
extra integers or other systems' data". -/
def DofObject.add_system (d : DofObject) : DofObject :=
  { d with idx_buf := encodeSystems (decodeSystems d.idx_buf ++ [[]]) }

/-- Modelled from the spec: `DofObject::set_n_systems(n)` "grows/sets the
number of systems this entity participates in", preserving extra-integer
data. -/
def DofObject.set_n_systems (d : DofObject) (n : Nat) : DofObject :=
  let sys := decodeSystems d.idx_buf
  { d with idx_buf :=
      encodeSystems (sys.take n ++ List.replicate (n - sys.length) []) }

/-- Modelled from the spec: `DofObject::set_n_vars_per_group(s, counts)`
defines how many variables live in each variable group of system `s`; new
groups start with zero components and an invalid DOF base. -/
def DofObject.set_n_vars_per_group (d : DofObject) (s : Nat)
    (nvpg : List Nat) : DofObject :=
  let sys := decodeSystems d.idx_buf
  { d with idx_buf :=
      encodeSystems (sys.set s (nvpg.map fun nv => (nv * ncv_magic, invalid_id))) }

/-- The DofObject of the "Jens Eftang" regression: empty object after
`set_buffer({2, 8, 257, 0, 257, 96, 257, 192, 257, 0})`. -/
def jensEftangObject : DofObject :=
  DofObject.set_buffer ⟨[], []⟩ [2, 8, 257, 0, 257, 96, 257, 192, 257, 0]

/-- Claim C1: for a DofObject whose packed index buffer has been set to
{2, 8, 257, 0, 257, 96, 257, 192, 257, 0} via set_buffer, dof_number(0,0,0)
returns 0, dof_number(0,1,0) returns 96, dof_number(0,2,0) returns 192, and
dof_number(1,0,0) returns 0 (the "Jens Eftang" regression); each value is
computed purely from the packed per-group metadata as
vg_dof_base(group) + var_in_group * n_comp_group + comp. -/
theorem C1_jens_eftang_dof_numbers :
    jensEftangObject.dof_number 0 0 0 = some 0 ∧
    jensEftangObject.dof_number 0 1 0 = some 96 ∧
    jensEftangObject.dof_number 0 2 0 = some 192 ∧
    jensEftangObject.dof_number 1 0 0 = some 0 ∧
    (∀ v : Fin 3, jensEftangObject.dof_number 0 v 0 =
      some (jensEftangObject.vg_dof_base 0 v +
        0 * jensEftangObject.n_comp_group 0 v + 0)) ∧
    jensEftangObject.dof_number 1 0 0 =
      some (jensEftangObject.vg_dof_base 1 0 +
        0 * jensEftangObject.n_comp_group 1 0 + 0) := by
  refine ⟨rfl, rfl, rfl, rfl, ?_, rfl⟩
  decide

theorem readBytes_append {l l₂ : List Nat} {off len : Nat}
    (h : off + len ≤ l.length) :
    readBytes (l ++ l₂) off len = readBytes l off len := by
  unfold readBytes
  rw [List.drop_append_of_le_length (by omega)]
  rw [List.take_append_of_le_length (by simp; omega)]

theorem readBytes_take {l : List Nat} {t off len : Nat}
    (h : off + len ≤ t) :
    readBytes (l.take t) off len = readBytes l off len := by
  unfold readBytes
  rw [List.drop_take]
  rw [List.take_take]
  congr 1
  omega

theorem readBytes_writeBytes {l bs : List Nat} {off : Nat}
    (h : off + bs.length ≤ l.length) :
    readBytes (writeBytes l off bs) off bs.length = bs := by
  unfold readBytes writeBytes
  have htk : (l.take off).length = off := by simp; omega
  rw [List.append_assoc, List.drop_append_of_le_length (le_of_eq htk.symm),
    List.drop_eq_nil_of_le (le_of_eq htk), List.nil_append,
    List.take_append_of_le_length (le_refl _), List.take_length]

theorem writeBytes_length {l bs : List Nat} {off : Nat}
    (h : off + bs.length ≤ l.length) :
    (writeBytes l off bs).length = l.length := by
  unfold writeBytes
  simp
  omega

theorem readBytes_replicate_flatten {pat : List Nat} {k j w : Nat}
    (hw : pat.length = w) (hj : j < k) :
    readBytes (List.replicate k pat).flatten (j * w) w = pat := by
  induction j generalizing k with
  | zero =>
      match k, hj with
      | k + 1, _ =>
        rw [List.replicate_succ, List.flatten_cons]
        unfold readBytes
        rw [Nat.zero_mul, List.drop_zero, List.take_append_of_le_length (by omega)]
        simp [hw]
  | succ j ih =>
      match k, hj with
      | k + 1, hj =>
        rw [List.replicate_succ, List.flatten_cons]
        unfold readBytes
        rw [show (j + 1) * w = pat.length + j * w by
          rw [hw, Nat.succ_mul, Nat.add_comm], List.drop_append]
        exact ih (Nat.lt_of_succ_lt_succ hj)

theorem bytesToNatLE_invalidSlot : bytesToNatLE invalidSlotBytes = invalid_id := by
  decide

/-- Claim C5: for every DofObject whose extra-integer array currently has `n`
slots (with any values already set in them) and every `m > n`, calling
`add_extra_integers(m)` leaves the first `n` extra-integer values unchanged
and initializes every slot in `[n, m)` to the invalid-id sentinel; and
`add_system`, `set_n_systems`, and `set_n_vars_per_group` never disturb the
extra-integer storage at all. -/
theorem C5_add_extra_integers_append_grow (d : DofObject) (n m : Nat)
    (hnm : n < m) (hlen : d.extra_bytes.length = n * slotBytes) :
    (∀ i, i < n →
      (d.add_extra_integers m).get_extra_integer i = d.get_extra_integer i) ∧
    (∀ i, n ≤ i → i < m →
      (d.add_extra_integers m).get_extra_integer i = invalid_id) ∧
    (d.add_system).extra_bytes = d.extra_bytes ∧
    (∀ k, (d.set_n_systems k).extra_bytes = d.extra_bytes) ∧
    (∀ s nvpg, (d.set_n_vars_per_group s nvpg).extra_bytes = d.extra_bytes) := by
  refine ⟨?_, ?_, rfl, fun k => rfl, fun s nvpg => rfl⟩
  · intro i hi
    unfold DofObject.add_extra_integers DofObject.get_extra_integer
    simp only
    rw [readBytes_append (by
      simp only [List.length_take, hlen]
      have : (i + 1) * slotBytes ≤ n * slotBytes :=
        Nat.mul_le_mul_right _ hi
      simp only [slotBytes] at this ⊢
      omega)]
    rw [readBytes_take (by
      have : (i + 1) * slotBytes ≤ m * slotBytes :=
        Nat.mul_le_mul_right _ (by omega)
      simp only [slotBytes] at this ⊢
      omega)]
  · intro i hni him
    unfold DofObject.add_extra_integers DofObject.get_extra_integer
    simp only
    have htake : d.extra_bytes.take (m * slotBytes) = d.extra_bytes := by
      apply List.take_of_length_le
      rw [hlen]
      exact Nat.mul_le_mul_right _ (by omega)
    rw [htake]
    have hcnt : d.n_extra_integers = n := by
      unfold DofObject.n_extra_integers
      rw [hlen]
      simp [slotBytes]
    rw [hcnt]
    unfold readBytes
    rw [show i * slotBytes = d.extra_bytes.length + (i - n) * slotBytes by
      rw [hlen]
      have : i * slotBytes = n * slotBytes + (i - n) * slotBytes := by
        rw [← Nat.add_mul]
        congr 1
        omega
      omega]
    rw [List.drop_append]
    have := @readBytes_replicate_flatten invalidSlotBytes (m - n) (i - n)
      slotBytes (by decide) (by omega)
    unfold readBytes at this
    rw [this]
    exact bytesToNatLE_invalidSlot

/-- Witness for C5: a DofObject with two set slots (values 7 and 9) grown from
2 to 4 slots keeps both values and fills slots 2 and 3 with the sentinel; the
system-shaping operations leave the extra storage untouched. -/
theorem C5_add_extra_integers_append_grow_witness :
    (2 < 4 ∧ ([7, 0, 0, 0, 9, 0, 0, 0] : List Nat).length = 2 * slotBytes) ∧
    ((⟨[1], [7, 0, 0, 0, 9, 0, 0, 0]⟩ : DofObject).add_extra_integers 4).get_extra_integer 1 =
      (⟨[1], [7, 0, 0, 0, 9, 0, 0, 0]⟩ : DofObject).get_extra_integer 1 ∧
    ((⟨[1], [7, 0, 0, 0, 9, 0, 0, 0]⟩ : DofObject).add_extra_integers 4).get_extra_integer 2 =
      invalid_id ∧
    ((⟨[1], [7, 0, 0, 0, 9, 0, 0, 0]⟩ : DofObject).add_system).extra_bytes =
      ([7, 0, 0, 0, 9, 0, 0, 0] : List Nat) :=
  ⟨⟨by decide, by decide⟩,
   (C5_add_extra_integers_append_grow ⟨[1], [7, 0, 0, 0, 9, 0, 0, 0]⟩ 2 4
      (by decide) (by decide)).1 1 (by decide),
   (C5_add_extra_integers_append_grow ⟨[1], [7, 0, 0, 0, 9, 0, 0, 0]⟩ 2 4
      (by decide) (by decide)).2.1 2 (by decide) (by decide),
   (C5_add_extra_integers_append_grow ⟨[1], [7, 0, 0, 0, 9, 0, 0, 0]⟩ 2 4
      (by decide) (by decide)).2.2.1⟩

/-- Claim C6: for every valid slot index `i` and every value (given by its
byte image `bs`, of any width: narrower than a slot like a char, or wider like
a Real spanning ceil(sizeof(Real)/sizeof(slot)) contiguous slots),
`set_extra_datum(i, bs)` followed by `get_extra_datum(i)` returns `bs`
bit-exactly, and the round-trip survives a later `add_extra_integers(m)` call
whenever the occupied bytes still fit in the resized array. -/
theorem C6_extra_datum_roundtrip (d : DofObject) (i : Nat) (bs : List Nat)
    (hfit : i * slotBytes + bs.length ≤ d.extra_bytes.length) :
    (d.set_extra_datum i bs).get_extra_datum i bs.length = bs ∧
    (∀ m, i * slotBytes + bs.length ≤ m * slotBytes →
      ((d.set_extra_datum i bs).add_extra_integers m).get_extra_datum
        i bs.length = bs) := by
  constructor
  · exact readBytes_writeBytes hfit
  · intro m hm
    unfold DofObject.add_extra_integers DofObject.get_extra_datum
    simp only
    have hwl : (d.set_extra_datum i bs).extra_bytes.length =
        d.extra_bytes.length := writeBytes_length hfit
    rw [readBytes_append (by
      simp only [List.length_take, hwl]
      omega)]
    rw [readBytes_take hm]
    exact readBytes_writeBytes hfit

/-- Witness for C6: on a 9-slot extra array, a one-byte char image written at
slot 1 and the 8-byte IEEE-754 image of pi written at slot 2 (spanning two
4-byte slots) both read back bit-exactly, the latter also after the array is
resized by a later `add_extra_integers(6)`. -/
theorem C6_extra_datum_roundtrip_witness :
    ((⟨[], (List.replicate 9 invalidSlotBytes).flatten⟩ : DofObject).set_extra_datum
        1 [49]).get_extra_datum 1 1 = [49] ∧
    (((⟨[], (List.replicate 9 invalidSlotBytes).flatten⟩ : DofObject).set_extra_datum
        2 [24, 45, 68, 84, 251, 33, 9, 64]).add_extra_integers 6).get_extra_datum
      2 8 = [24, 45, 68, 84, 251, 33, 9, 64] :=
  ⟨(C6_extra_datum_roundtrip ⟨[], (List.replicate 9 invalidSlotBytes).flatten⟩
      1 [49] (by decide)).1,
   (C6_extra_datum_roundtrip ⟨[], (List.replicate 9 invalidSlotBytes).flatten⟩
      2 [24, 45, 68, 84, 251, 33, 9, 64] (by decide)).2 6 (by decide)⟩

/-! ## Uniform refinement round trip (AdjointRefinementEstimator::estimate_error,
adjoint_refinement_estimator.C lines 255-296 and 602-640; the
MeshRefinement::uniformly_refine / uniformly_coarsen / uniformly_p_refine /
uniformly_p_coarsen implementations are not under src/ and are modelled from
the spec's refinement state machine, section 4.4). -/

mutual
/-- Modelled from the spec: one element of the refinement hierarchy, carrying
its element data `d` (identity/topology, from which its nodes derive), its
p-level, and its children.  An element with no children is active (a leaf);
an element with children is inactive ("inactive-has-children"). -/
inductive RTree where
  | mk (d : Nat) (p : Nat) (children : RForest)

/-- A sibling group of refinement-hierarchy elements. -/
inductive RForest where
  | nil
  | cons (t : RTree) (ts : RForest)
end

/-- Whether an element is active (has no children). -/
def isLeafT : RTree → Bool
  | .mk _ _ .nil => true
  | _ => false

/-- Whether all elements of a sibling group are active. -/
def allLeavesF : RForest → Bool
  | .nil => true
  | .cons t ts => isLeafT t && allLeavesF ts

/-- Build a sibling group of fresh active children with the given data,
inheriting the parent's p-level. -/
def leavesOf (p : Nat) : List Nat → RForest
  | [] => .nil
  | c :: cs => .cons (.mk c p .nil) (leavesOf p cs)

mutual
/-- Modelled from the spec: one step of `MeshRefinement::uniformly_refine(1)`:
every active element is replaced by an inactive parent with the
topology-descriptor children (`cd` gives the child data per element data),
"flagged-for-refinement -> inactive-has-children ... creating N new
active-unflagged children"; inactive elements refine inside their subtrees. -/
def hRefineT (cd : Nat → List Nat) : RTree → RTree
  | .mk d p .nil => .mk d p (leavesOf p (cd d))
  | .mk d p (.cons t ts) => .mk d p (hRefineF cd (.cons t ts))

/-- `hRefineT` mapped over a sibling group. -/
def hRefineF (cd : Nat → List Nat) : RForest → RForest
  | .nil => .nil
  | .cons t ts => .cons (hRefineT cd t) (hRefineF cd ts)
end

mutual
/-- Modelled from the spec: one step of `MeshRefinement::uniformly_coarsen(1)`:
"a set of active sibling children, all flagged-for-coarsening, -> their shared
parent becomes active-unflagged again (children destroyed together - atomic
sibling-group coarsening only)"; a parent whose children are not all active
instead coarsens inside the subtrees. -/
def hCoarsenT : RTree → RTree
  | .mk d p .nil => .mk d p .nil
  | .mk d p (.cons t ts) =>
      if allLeavesF (.cons t ts) then .mk d p .nil
      else .mk d p (hCoarsenF (.cons t ts))

/-- `hCoarsenT` mapped over a sibling group. -/
def hCoarsenF : RForest → RForest
  | .nil => .nil
  | .cons t ts => .cons (hCoarsenT t) (hCoarsenF ts)
end

mutual
/-- Modelled from the spec: one step of
`MeshRefinement::uniformly_p_refine(1)`: every active element raises its
p-level by one; topology is unchanged. -/
def pRefineT : RTree → RTree
  | .mk d p .nil => .mk d (p + 1) .nil
  | .mk d p (.cons t ts) => .mk d p (pRefineF (.cons t ts))

/-- `pRefineT` mapped over a sibling group. -/
def pRefineF : RForest → RForest
  | .nil => .nil
  | .cons t ts => .cons (pRefineT t) (pRefineF ts)
end

mutual
/-- Modelled from the spec: one step of
`MeshRefinement::uniformly_p_coarsen(1)`: every active element lowers its
p-level by one; topology is unchanged. -/
def pCoarsenT : RTree → RTree
  | .mk d p .nil => .mk d (p - 1) .nil
  | .mk d p (.cons t ts) => .mk d p (pCoarsenF (.cons t ts))

/-- `pCoarsenT` mapped over a sibling group. -/
def pCoarsenF : RForest → RForest
  | .nil => .nil
  | .cons t ts => .cons (pCoarsenT t) (pCoarsenF ts)
end

mutual
/-- The data of the active elements of a subtree, in traversal order. -/
def activeDatasT : RTree → List Nat
  | .mk d _ .nil => [d]
  | .mk _ _ (.cons t ts) => activeDatasF (.cons t ts)

/-- The data of the active elements of a sibling group. -/
def activeDatasF : RForest → List Nat
  | .nil => []
  | .cons t ts => activeDatasT t ++ activeDatasF ts
end

/-- `MeshBase::n_active_elem()` over a mesh (a forest of coarse elements). -/
def nActiveF (f : RForest) : Nat := (activeDatasF f).length

/-- The pre/post-refinement dof-bearing-node count of estimate_error
(adjoint_refinement_estimator.C lines 260-269 and 629-637): the number of
distinct nodes of active elements that carry at least one nonzero-component
variable of the system.  `en` gives each element's node ids (derived from the
element data by the topology descriptor) and `bears` whether a node carries
dofs. -/
def dofBearingNodeCount (en : Nat → List Nat) (bears : Nat → Bool)
    (f : RForest) : Nat :=
  ((((activeDatasF f).map en).flatten).dedup.filter bears).length

mutual
/-- Erase all p-levels (p-refinement changes no topology, so counts factor
through this erasure). -/
def stripT : RTree → RTree
  | .mk d _ .nil => .mk d 0 .nil
  | .mk d _ (.cons t ts) => .mk d 0 (stripF (.cons t ts))

/-- `stripT` mapped over a sibling group. -/
def stripF : RForest → RForest
  | .nil => .nil
  | .cons t ts => .cons (stripT t) (stripF ts)
end

theorem allLeavesF_leavesOf (p : Nat) (cs : List Nat) :
    allLeavesF (leavesOf p cs) = true := by
  induction cs with
  | nil => rfl
  | cons c cs ih => simp [leavesOf, allLeavesF, isLeafT, ih]

theorem isLeafT_hRefineT (cd : Nat → List Nat) (hcd : ∀ d, cd d ≠ [])
    (t : RTree) : isLeafT (hRefineT cd t) = false := by
  match t with
  | .mk d p .nil =>
      rw [hRefineT]
      match hcds : cd d with
      | [] => exact absurd hcds (hcd d)
      | c :: cs => rw [leavesOf]; rfl
  | .mk d p (.cons t ts) => rw [hRefineT]; rfl

mutual
theorem hCoarsenT_hRefineT (cd : Nat → List Nat) (hcd : ∀ d, cd d ≠ [])
    (t : RTree) : hCoarsenT (hRefineT cd t) = t := by
  match t with
  | .mk d p .nil =>
      rw [hRefineT]
      match hcds : cd d with
      | [] => exact absurd hcds (hcd d)
      | c :: cs =>
          rw [leavesOf, hCoarsenT]
          rw [show allLeavesF (.cons (.mk c p .nil) (leavesOf p cs)) = true by
            simp [allLeavesF, isLeafT, allLeavesF_leavesOf]]
          rfl
  | .mk d p (.cons t ts) =>
      rw [hRefineT, hRefineF, hCoarsenT]
      rw [show allLeavesF (.cons (hRefineT cd t) (hRefineF cd ts)) = false by
        simp [allLeavesF, isLeafT_hRefineT cd hcd t]]
      rw [if_neg (by simp)]
      rw [show hCoarsenF (.cons (hRefineT cd t) (hRefineF cd ts)) =
            hCoarsenF (hRefineF cd (.cons t ts)) by rw [hRefineF]]
      rw [hCoarsenF_hRefineF cd hcd (.cons t ts)]

theorem hCoarsenF_hRefineF (cd : Nat → List Nat) (hcd : ∀ d, cd d ≠ [])
    (f : RForest) : hCoarsenF (hRefineF cd f) = f := by
  match f with
  | .nil => rfl
  | .cons t ts =>
      rw [hRefineF, hCoarsenF, hCoarsenT_hRefineT cd hcd t,
        hCoarsenF_hRefineF cd hcd ts]
end

theorem stripF_leavesOf (p : Nat) (cs : List Nat) :
    stripF (leavesOf p cs) = leavesOf 0 cs := by
  induction cs with
  | nil => rfl
  | cons c cs ih => rw [leavesOf, leavesOf, stripF, stripT, ih]

theorem isLeafT_stripT (t : RTree) : isLeafT (stripT t) = isLeafT t := by
  match t with
  | .mk d p .nil => rfl
  | .mk d p (.cons t ts) => rw [stripT]; rfl

theorem allLeavesF_stripF (f : RForest) : allLeavesF (stripF f) = allLeavesF f := by
  match f with
  | .nil => rfl
  | .cons t ts =>
      rw [stripF, allLeavesF, allLeavesF, isLeafT_stripT, allLeavesF_stripF ts]

mutual
theorem stripT_pRefineT (t : RTree) : stripT (pRefineT t) = stripT t := by
  match t with
  | .mk d p .nil => rfl
  | .mk d p (.cons t ts) =>
      rw [pRefineT, pRefineF, stripT, stripT, stripF, stripF,
        stripT_pRefineT t, stripF_pRefineF ts]

theorem stripF_pRefineF (f : RForest) : stripF (pRefineF f) = stripF f := by
  match f with
  | .nil => rfl
  | .cons t ts =>
      rw [pRefineF, stripF, stripF, stripT_pRefineT t, stripF_pRefineF ts]
end

mutual
theorem stripT_pCoarsenT (t : RTree) : stripT (pCoarsenT t) = stripT t := by
  match t with
  | .mk d p .nil => rfl
  | .mk d p (.cons t ts) =>
      rw [pCoarsenT, pCoarsenF, stripT, stripT, stripF, stripF,
        stripT_pCoarsenT t, stripF_pCoarsenF ts]

theorem stripF_pCoarsenF (f : RForest) : stripF (pCoarsenF f) = stripF f := by
  match f with
  | .nil => rfl
  | .cons t ts =>
      rw [pCoarsenF, stripF, stripF, stripT_pCoarsenT t, stripF_pCoarsenF ts]
end

theorem stripT_hRefineT_leaf (cd : Nat → List Nat) (d p : Nat) :
    stripT (hRefineT cd (.mk d p .nil)) = hRefineT cd (stripT (.mk d p .nil)) := by
  cases hcds : cd d with
  | nil =>
      show stripT (.mk d p (leavesOf p (cd d))) = .mk d 0 (leavesOf 0 (cd d))
      rw [hcds]
      rfl
  | cons c cs =>
      show stripT (.mk d p (leavesOf p (cd d))) = .mk d 0 (leavesOf 0 (cd d))
      rw [hcds]
      simp only [leavesOf, stripT, stripF, stripF_leavesOf]

mutual
theorem stripT_hRefineT (cd : Nat → List Nat) (t : RTree) :
    stripT (hRefineT cd t) = hRefineT cd (stripT t) := by
  match t with
  | .mk d p .nil => exact stripT_hRefineT_leaf cd d p
  | .mk d p (.cons t ts) =>
      simp only [hRefineT, hRefineF, stripT, stripF, stripT_hRefineT cd t,
        stripF_hRefineF cd ts]

theorem stripF_hRefineF (cd : Nat → List Nat) (f : RForest) :
    stripF (hRefineF cd f) = hRefineF cd (stripF f) := by
  match f with
  | .nil => rfl
  | .cons t ts =>
      simp only [hRefineF, stripF, stripT_hRefineT cd t, stripF_hRefineF cd ts]
end

mutual
theorem stripT_hCoarsenT (t : RTree) :
    stripT (hCoarsenT t) = hCoarsenT (stripT t) := by
  match t with
  | .mk d p .nil => rfl
  | .mk d p (.cons t ts) =>
      have hcond : allLeavesF (.cons (stripT t) (stripF ts)) =
          allLeavesF (.cons t ts) := by
        have h := allLeavesF_stripF (.cons t ts)
        simpa [stripF] using h
      by_cases hall : allLeavesF (.cons t ts) = true
      · simp only [hCoarsenT, stripT, stripF, hcond, hall, if_true]
      · simp only [hCoarsenT, hCoarsenF, stripT, stripF, hcond, hall,
          Bool.false_eq_true, if_false, stripT_hCoarsenT t, stripF_hCoarsenF ts]

theorem stripF_hCoarsenF (f : RForest) :
    stripF (hCoarsenF f) = hCoarsenF (stripF f) := by
  match f with
  | .nil => rfl
  | .cons t ts =>
      simp only [hCoarsenF, stripF, stripT_hCoarsenT t, stripF_hCoarsenF ts]
end

mutual
theorem activeDatasT_stripT (t : RTree) :
    activeDatasT (stripT t) = activeDatasT t := by
  match t with
  | .mk d p .nil => rfl
  | .mk d p (.cons t ts) =>
      simp only [stripT, stripF, activeDatasT, activeDatasF,
        activeDatasT_stripT t, activeDatasF_stripF ts]

theorem activeDatasF_stripF (f : RForest) :
    activeDatasF (stripF f) = activeDatasF f := by
  match f with
  | .nil => rfl
  | .cons t ts =>
      simp only [stripF, activeDatasF, activeDatasT_stripT t,
        activeDatasF_stripF ts]
end

theorem hCoarsenF_iter_hRefineF_iter (cd : Nat → List Nat)
    (hcd : ∀ d, cd d ≠ []) (n : Nat) (f : RForest) :
    hCoarsenF^[n] ((hRefineF cd)^[n] f) = f := by
  induction n generalizing f with
  | zero => rfl
  | succ n ih =>
      rw [Function.iterate_succ_apply' (hRefineF cd) n f,
        Function.iterate_succ_apply hCoarsenF n,
        hCoarsenF_hRefineF cd hcd ((hRefineF cd)^[n] f), ih]

theorem stripF_pRefineF_iter (n : Nat) (f : RForest) :
    stripF (pRefineF^[n] f) = stripF f := by
  induction n with
  | zero => rfl
  | succ n ih => rw [Function.iterate_succ_apply' pRefineF n f, stripF_pRefineF, ih]

theorem stripF_pCoarsenF_iter (n : Nat) (f : RForest) :
    stripF (pCoarsenF^[n] f) = stripF f := by
  induction n with
  | zero => rfl
  | succ n ih => rw [Function.iterate_succ_apply' pCoarsenF n f, stripF_pCoarsenF, ih]

theorem stripF_hRefineF_iter (cd : Nat → List Nat) (n : Nat) (f : RForest) :
    stripF ((hRefineF cd)^[n] f) = (hRefineF cd)^[n] (stripF f) := by
  induction n with
  | zero => rfl
  | succ n ih =>
      rw [Function.iterate_succ_apply' (hRefineF cd) n f, stripF_hRefineF, ih,
        ← Function.iterate_succ_apply' (hRefineF cd) n (stripF f)]

theorem stripF_hCoarsenF_iter (n : Nat) (f : RForest) :
    stripF (hCoarsenF^[n] f) = hCoarsenF^[n] (stripF f) := by
  induction n with
  | zero => rfl
  | succ n ih =>
      rw [Function.iterate_succ_apply' hCoarsenF n f, stripF_hCoarsenF, ih,
        ← Function.iterate_succ_apply' hCoarsenF n (stripF f)]

/-- The active-element data of the mesh is restored by the estimate_error
refine/coarsen cycle: h-refine `nh` times, p-refine `np` times, then h-coarsen
`nh` times and p-coarsen `np` times. -/
theorem activeDatas_roundTrip (cd : Nat → List Nat) (hcd : ∀ d, cd d ≠ [])
    (m : RForest) (nh np : Nat) :
    activeDatasF
      (pCoarsenF^[np] (hCoarsenF^[nh] (pRefineF^[np] ((hRefineF cd)^[nh] m)))) =
      activeDatasF m := by
  rw [← activeDatasF_stripF
    (pCoarsenF^[np] (hCoarsenF^[nh] (pRefineF^[np] ((hRefineF cd)^[nh] m))))]
  rw [stripF_pCoarsenF_iter, stripF_hCoarsenF_iter, stripF_pRefineF_iter,
    stripF_hRefineF_iter, hCoarsenF_iter_hRefineF_iter cd hcd,
    activeDatasF_stripF]

/-- Claim C3: for every mesh (a forest of refinement trees whose topology
descriptor `cd` assigns every element type a nonempty child list), uniformly
h-refining `number_h_refinements` times and p-refining
`number_p_refinements` times and then uniformly h-coarsening and p-coarsening
by the same counts, as performed inside
`AdjointRefinementEstimator::estimate_error` (lines 286-296 and 608-619),
returns the mesh's active element count (`n_active_elem`, line 624 assertion)
and the local count of dof-bearing nodes (lines 629-639 assertion) to their
pre-refinement values, for every node table `en` and dof-bearing predicate
`bears`. -/
theorem C3_refine_coarsen_round_trip (cd : Nat → List Nat)
    (hcd : ∀ d, cd d ≠ []) (m : RForest) (nh np : Nat)
    (en : Nat → List Nat) (bears : Nat → Bool) :
    nActiveF
        (pCoarsenF^[np] (hCoarsenF^[nh] (pRefineF^[np] ((hRefineF cd)^[nh] m)))) =
      nActiveF m ∧
    dofBearingNodeCount en bears
        (pCoarsenF^[np] (hCoarsenF^[nh] (pRefineF^[np] ((hRefineF cd)^[nh] m)))) =
      dofBearingNodeCount en bears m := by
  constructor
  · unfold nActiveF
    rw [activeDatas_roundTrip cd hcd m nh np]
  · unfold dofBearingNodeCount
    rw [activeDatas_roundTrip cd hcd m nh np]

/-- Witness for C3: a two-element mesh with quad-style four-child refinement,
two h-refinements and one p-refinement, returns to 2 active elements and its
original dof-bearing node count. -/
theorem C3_refine_coarsen_round_trip_witness :
    nActiveF
        (pCoarsenF^[1] (hCoarsenF^[2] (pRefineF^[1]
          ((hRefineF (fun d => [4 * d, 4 * d + 1, 4 * d + 2, 4 * d + 3]))^[2]
            (.cons (.mk 1 0 .nil) (.cons (.mk 2 0 .nil) .nil)))))) =
      nActiveF (.cons (.mk 1 0 .nil) (.cons (.mk 2 0 .nil) .nil)) ∧
    nActiveF (.cons (.mk 1 0 .nil) (.cons (.mk 2 0 .nil) .nil)) = 2 :=
  ⟨(C3_refine_coarsen_round_trip
      (fun d => [4 * d, 4 * d + 1, 4 * d + 2, 4 * d + 3])
      (fun _ => List.cons_ne_nil _ _)
      (.cons (.mk 1 0 .nil) (.cons (.mk 2 0 .nil) .nil)) 2 1
      (fun d => [d, d + 1]) (fun _ => true)).1,
   rfl⟩

/-! ## JumpErrorEstimator::estimate_error (adjoint_refinement_estimator.C,
second compilation unit, lines 746-1238).  The embedding follows the main
active-local-element loop with the default flag settings exercised by the
claims: estimate_parent_error disabled (the AMR parent pre-pass is skipped),
no slit integration, no boundary-side integration, no scaling by flux-face
counts, no infinite elements, and one significant variable; the derived-class
`internal_side_integration` is not under src/ and is modelled from the spec as
a quadrature-weighted squared-jump face integral contributing the same amount
to both sides. -/

/-- An element as seen by the jump-estimator loop: its global id (`e->id()`),
its refinement level (`e->level()`), whether it is active, and per side the id
of `e->neighbor_ptr(side)` (none on boundary). -/
structure JElem where
  eid : Nat
  lvl : Nat
  active : Bool
  nbrs : List (Option Nat)
deriving DecidableEq, Repr

/-- The mesh seen by `JumpErrorEstimator::estimate_error`: its elements (the
active ones are iterated by `active_local_element_ptr_range`, in serial all
active elements), and for each ordered (fine id, coarse id) pair the shared
face's quadrature samples (weight, value on the fine side, value on the
coarse side) used by the side integration. -/
structure JMesh where
  elems : List JElem
  samples : Nat → Nat → List (ℚ × ℚ × ℚ)

/-- Look an element up by id (neighbor pointers are modelled by ids). -/
def JMesh.find (m : JMesh) (i : Nat) : Option JElem :=
  m.elems.find? (fun e => e.eid == i)

/-- Modelled from the spec: the `internal_side_integration` face integral,
"a face-integral jump quantity (difference in flux/gradient continuity across
the shared face, weighted by quadrature)"; per the spec the same value is
accumulated into both neighbors' slots. -/
def jumpIntegral (sm : List (ℚ × ℚ × ℚ)) : ℚ :=
  (sm.map (fun w => w.1 * (w.2.1 - w.2.2) ^ 2)).sum

/-- The case-1/case-2 face-selection condition of the main loop (lines
1034-1035): integrate from element `e` against neighbor `f` iff `f` is active
at the same level with larger id (case 1), or `f` is coarser (case 2). -/
def integratesFace (e f : JElem) : Bool :=
  (f.active && (f.lvl == e.lvl) && decide (e.eid < f.eid)) || decide (f.lvl < e.lvl)

/-- Add `c` into slot `i` of the error vector. -/
def addAt (err : Nat → ℚ) (i : Nat) (c : ℚ) : Nat → ℚ :=
  fun j => if j = i then err j + c else err j

/-- One side iteration of the neighbor loop (lines 1016-1063): if the side has
a neighbor and the case-1/case-2 condition selects it, accumulate the side
integral into both the fine element's and the coarse element's slots. -/
def sideStep (m : JMesh) (e : JElem) (err : Nat → ℚ) (nb : Option Nat) :
    Nat → ℚ :=
  match nb with
  | none => err
  | some fid =>
      match m.find fid with
      | none => err
      | some f =>
          if integratesFace e f then
            let c := jumpIntegral (m.samples e.eid f.eid)
            addAt (addAt err e.eid c) f.eid c
          else err

/-- The neighbor loop of one active local element. -/
def elemStep (m : JMesh) (err : Nat → ℚ) (e : JElem) : Nat → ℚ :=
  e.nbrs.foldl (sideStep m e) err

/-- The full accumulation pass over active local elements, starting from the
zero-initialized error vector (line 805-806). -/
def accumulateJumps (m : JMesh) : Nat → ℚ :=
  (m.elems.filter (fun e => e.active)).foldl (elemStep m) (fun _ => 0)

/-- The complete `JumpErrorEstimator::estimate_error` output: after the
accumulation pass (and the no-op serial `reduce_error`), one square root is
applied per entry, only to nonzero entries (lines 1201-1203).  `sqrtFn`
stands for `std::sqrt`. -/
def jumpEstimate (m : JMesh) (sqrtFn : ℚ → ℚ) : Nat → ℚ :=
  fun i =>
    if accumulateJumps m i ≠ 0 then sqrtFn (accumulateJumps m i)
    else accumulateJumps m i

/-- The list of ordered (fine id, coarse id) pairs whose faces element `e`'s
neighbor loop integrates. -/
def facePairsOfElem (m : JMesh) (e : JElem) : List (Nat × Nat) :=
  e.nbrs.foldr
    (fun nb acc =>
      match nb with
      | none => acc
      | some fid =>
          match m.find fid with
          | none => acc
          | some f =>
              if integratesFace e f then (e.eid, f.eid) :: acc else acc)
    []

/-- All integrated (fine id, coarse id) pairs of one estimate_error call. -/
def facePairs (m : JMesh) : List (Nat × Nat) :=
  (m.elems.filter (fun e => e.active)).foldr
    (fun e acc => facePairsOfElem m e ++ acc) []

/-- The total amount the integrated face list contributes to slot `i`: each
pair deposits its face integral once into the fine slot and once into the
coarse slot. -/
def pairContrib (m : JMesh) (i : Nat) (ps : List (Nat × Nat)) : ℚ :=
  (ps.map (fun p =>
    (if i = p.1 then jumpIntegral (m.samples p.1 p.2) else 0) +
    (if i = p.2 then jumpIntegral (m.samples p.1 p.2) else 0))).sum

theorem pairContrib_append (m : JMesh) (i : Nat) (ps qs : List (Nat × Nat)) :
    pairContrib m i (ps ++ qs) = pairContrib m i ps + pairContrib m i qs := by
  unfold pairContrib
  rw [List.map_append, List.sum_append]

theorem elemStep_eval (m : JMesh) (e : JElem) :
    ∀ (nbs : List (Option Nat)) (err : Nat → ℚ) (i : Nat),
      (nbs.foldl (sideStep m e) err) i =
        err i + pairContrib m i
          (nbs.foldr
            (fun nb acc =>
              match nb with
              | none => acc
              | some fid =>
                  match m.find fid with
                  | none => acc
                  | some f =>
                      if integratesFace e f then (e.eid, f.eid) :: acc else acc)
            []) := by
  intro nbs
  induction nbs with
  | nil => intro err i; simp [pairContrib]
  | cons nb rest ih =>
      intro err i
      rw [List.foldl_cons, List.foldr_cons, ih (sideStep m e err nb) i]
      cases nb with
      | none =>
          rw [sideStep]
      | some fid =>
          rw [sideStep]
          dsimp only
          cases hfd : m.find fid with
          | none => rfl
          | some f =>
              dsimp only
              by_cases hint : integratesFace e f = true
              · rw [if_pos hint, if_pos hint]
                unfold pairContrib
                rw [List.map_cons, List.sum_cons]
                unfold addAt
                by_cases hB : i = f.eid <;> by_cases hA : i = e.eid
                · have hEF : e.eid = f.eid := hA.symm.trans hB
                  simp [hA, hB, hEF]
                  try ring
                · have hFE : ¬ f.eid = e.eid := fun h => hA (hB.trans h)
                  simp [hA, hB, hFE]
                  try ring
                · have hEF : ¬ e.eid = f.eid := fun h => hB (hA.trans h)
                  simp [hA, hB, hEF]
                  try ring
                · simp [hA, hB]
                  try ring
              · rw [if_neg hint, if_neg hint]

theorem foldl_elemStep_eval (m : JMesh) :
    ∀ (es : List JElem) (err : Nat → ℚ) (i : Nat),
      (es.foldl (elemStep m) err) i =
        err i + pairContrib m i
          (es.foldr (fun e acc => facePairsOfElem m e ++ acc) []) := by
  intro es
  induction es with
  | nil => intro err i; simp [pairContrib]
  | cons e rest ih =>
      intro err i
      rw [List.foldl_cons, List.foldr_cons, ih, pairContrib_append]
      rw [show elemStep m err e i =
            err i + pairContrib m i (facePairsOfElem m e) from
          elemStep_eval m e e.nbrs err i]
      ring

/-- The accumulation pass deposits, into every slot `i`, exactly the summed
per-face contributions of the integrated face list: the same face integral
once for the fine slot and once for the coarse slot of each face. -/
theorem accumulateJumps_eq_pairContrib (m : JMesh) (i : Nat) :
    accumulateJumps m i = pairContrib m i (facePairs m) := by
  unfold accumulateJumps facePairs
  rw [foldl_elemStep_eval]
  simp

theorem jumpIntegral_swap (l : List (ℚ × ℚ × ℚ)) :
    jumpIntegral (l.map (fun x => (x.1, x.2.2, x.2.1))) = jumpIntegral l := by
  induction l with
  | nil => rfl
  | cons w l ih =>
      unfold jumpIntegral at ih ⊢
      simp only [List.map_cons, List.sum_cons]
      rw [ih]
      ring

/-- Claim C4: for every internal face handled by
`JumpErrorEstimator::estimate_error`, the same jump contribution is
accumulated into both face-adjacent elements' error_per_cell slots - the
side integral is identical whether computed from the finer or the coarser
side (when the two orientations describe the same physical face data) - and
the per-element square root is applied exactly once, only after all face
contributions have been summed, and only to nonzero entries. -/
theorem C4_jump_contribution_symmetric_sqrt_once (m : JMesh) (sq : ℚ → ℚ)
    (hsym : ∀ a b, m.samples b a =
      (m.samples a b).map (fun x => (x.1, x.2.2, x.2.1))) :
    (∀ a b, jumpIntegral (m.samples a b) = jumpIntegral (m.samples b a)) ∧
    (∀ i, accumulateJumps m i = pairContrib m i (facePairs m)) ∧
    (∀ i, accumulateJumps m i = 0 → jumpEstimate m sq i = 0) ∧
    (∀ i, accumulateJumps m i ≠ 0 →
      jumpEstimate m sq i = sq (accumulateJumps m i)) := by
  refine ⟨?_, accumulateJumps_eq_pairContrib m, ?_, ?_⟩
  · intro a b
    rw [hsym a b, jumpIntegral_swap]
  · intro i h0
    unfold jumpEstimate
    rw [if_neg (by simp [h0]), h0]
  · intro i h0
    unfold jumpEstimate
    rw [if_pos h0]

/-- A concrete two-element jump-estimator mesh: elements 0 and 1, same level,
mutual neighbors across one shared face whose quadrature data is (weight 1,
fine value 2, coarse value 5) seen from element 0 and the mirrored triple
seen from element 1. -/
def jmeshW : JMesh :=
  { elems := [⟨0, 0, true, [some 1]⟩, ⟨1, 0, true, [some 0]⟩],
    samples := fun a b =>
      if a = 0 ∧ b = 1 then [(1, 2, 5)]
      else if a = 1 ∧ b = 0 then [(1, 5, 2)] else [] }

theorem jmeshW_samples_sym : ∀ a b, jmeshW.samples b a =
    (jmeshW.samples a b).map (fun x => (x.1, x.2.2, x.2.1)) := by
  intro a b
  by_cases h1 : a = 0 ∧ b = 1
  · obtain ⟨ha, hb⟩ := h1
    subst ha; subst hb
    rfl
  · by_cases h2 : a = 1 ∧ b = 0
    · obtain ⟨ha, hb⟩ := h2
      subst ha; subst hb
      rfl
    · have h1x : ¬ (b = 1 ∧ a = 0) := fun h => h1 ⟨h.2, h.1⟩
      have h2x : ¬ (b = 0 ∧ a = 1) := fun h => h2 ⟨h.2, h.1⟩
      show (if b = 0 ∧ a = 1 then _ else if b = 1 ∧ a = 0 then _ else []) =
        List.map _ (if a = 0 ∧ b = 1 then _ else if a = 1 ∧ b = 0 then _ else [])
      rw [if_neg h2x, if_neg h1x, if_neg h1, if_neg h2]
      rfl

/-- Witness for C4: on the concrete two-element mesh the face integral agrees
from both sides, the accumulated vector matches the per-face contribution sum
(slot 0 receives the face value 1*(2-5)^2 = 9), and the square-root pass maps
the zero entry of an untouched slot to zero. -/
theorem C4_jump_contribution_symmetric_sqrt_once_witness :
    (jumpIntegral (jmeshW.samples 0 1) = jumpIntegral (jmeshW.samples 1 0) ∧
      accumulateJumps jmeshW 0 = pairContrib jmeshW 0 (facePairs jmeshW) ∧
      jumpEstimate jmeshW (fun x => x) 5 = 0) ∧
    accumulateJumps jmeshW 0 = 9 :=
  ⟨⟨(C4_jump_contribution_symmetric_sqrt_once jmeshW (fun x => x)
        jmeshW_samples_sym).1 0 1,
    (C4_jump_contribution_symmetric_sqrt_once jmeshW (fun x => x)
        jmeshW_samples_sym).2.1 0,
    (C4_jump_contribution_symmetric_sqrt_once jmeshW (fun x => x)
        jmeshW_samples_sym).2.2.1 5 (by
      simp +decide [accumulateJumps, jmeshW, elemStep, sideStep, JMesh.find,
        List.find?, List.filter, integratesFace, addAt, jumpIntegral])⟩,
   by
    simp +decide [accumulateJumps, jmeshW, elemStep, sideStep, JMesh.find,
      List.find?, List.filter, integratesFace, addAt, jumpIntegral]
    norm_num⟩

/-- Whether an ordered pair is (in either orientation) the face between
elements of ids `A` and `B`. -/
def matchPair (A B : Nat) (p : Nat × Nat) : Bool :=
  (p.1 == A && p.2 == B) || (p.1 == B && p.2 == A)

theorem matchPair_comm (A B : Nat) (p : Nat × Nat) :
    matchPair A B p = matchPair B A p := by
  unfold matchPair
  exact Bool.or_comm _ _

/-- The integrated face pairs of one element's neighbor loop, as a recursion
over the neighbor list. -/
def sidePairs (m : JMesh) (e : JElem) : List (Option Nat) → List (Nat × Nat)
  | [] => []
  | none :: rest => sidePairs m e rest
  | some fid :: rest =>
      match m.find fid with
      | none => sidePairs m e rest
      | some f =>
          if integratesFace e f then (e.eid, f.eid) :: sidePairs m e rest
          else sidePairs m e rest

theorem facePairsOfElem_eq_sidePairs (m : JMesh) (e : JElem) :
    facePairsOfElem m e = sidePairs m e e.nbrs := by
  unfold facePairsOfElem
  induction e.nbrs with
  | nil => rfl
  | cons nb rest ih =>
      rw [List.foldr_cons, ih]
      cases nb with
      | none => rfl
      | some fid =>
          dsimp only
          cases hfd : m.find fid with
          | none => rw [sidePairs, hfd]
          | some f => rw [sidePairs, hfd]

theorem find_eid_of_find_eq_some {m : JMesh} {i : Nat} {h : JElem}
    (hf : m.find i = some h) : h.eid = i := by
  unfold JMesh.find at hf
  have := List.find?_some hf
  simpa using this

theorem countP_sidePairs_lister (m : JMesh) (g fB : JElem) (B : Nat)
    (hgB : g.eid ≠ B) (hfind : m.find B = some fB) :
    ∀ nbs : List (Option Nat),
      (sidePairs m g nbs).countP (matchPair g.eid B) =
        if integratesFace g fB then nbs.count (some B) else 0 := by
  intro nbs
  induction nbs with
  | nil => simp [sidePairs]
  | cons nb rest ih =>
      cases nb with
      | none =>
          rw [sidePairs, ih, List.count_cons]
          simp
      | some fid =>
          by_cases hB : fid = B
          · rw [sidePairs, hB, hfind]
            dsimp only
            have hBe : fB.eid = B := find_eid_of_find_eq_some hfind
            by_cases hint : integratesFace g fB = true
            · rw [if_pos hint, List.countP_cons, ih, if_pos hint, if_pos hint]
              rw [List.count_cons]
              have hm : matchPair g.eid B (g.eid, fB.eid) = true := by
                unfold matchPair
                simp [hBe]
              rw [hm]
              simp
            · rw [if_neg hint, ih, if_neg hint, if_neg hint]
          · rw [sidePairs]
            have hcount : (some fid :: rest).count (some B) = rest.count (some B) := by
              rw [List.count_cons]
              simp [hB]
            cases hfd : m.find fid with
            | none =>
                dsimp only
                rw [ih, hcount]
            | some h =>
                dsimp only
                have hhe : h.eid = fid := find_eid_of_find_eq_some hfd
                by_cases hint : integratesFace g h = true
                · rw [if_pos hint, List.countP_cons]
                  have hm : matchPair g.eid B (g.eid, h.eid) = false := by
                    unfold matchPair
                    simp [hhe, hB, hgB]
                  rw [hm, ih, hcount]
                  simp
                · rw [if_neg hint, ih, hcount]

theorem countP_sidePairs_other (m : JMesh) (g : JElem) (A B : Nat)
    (hgA : g.eid ≠ A) (hgB : g.eid ≠ B) :
    ∀ nbs : List (Option Nat),
      (sidePairs m g nbs).countP (matchPair A B) = 0 := by
  intro nbs
  induction nbs with
  | nil => simp [sidePairs]
  | cons nb rest ih =>
      cases nb with
      | none => rw [sidePairs, ih]
      | some fid =>
          rw [sidePairs]
          cases hfd : m.find fid with
          | none =>
              dsimp only
              rw [ih]
          | some h =>
              dsimp only
              by_cases hint : integratesFace g h = true
              · rw [if_pos hint, List.countP_cons]
                have hm : matchPair A B (g.eid, h.eid) = false := by
                  unfold matchPair
                  simp [hgA, hgB]
                rw [hm, ih]
                simp
              · rw [if_neg hint, ih]

theorem countP_facePairs (m : JMesh) (P : Nat × Nat → Bool) :
    (facePairs m).countP P =
      ((m.elems.filter (fun e => e.active)).map
        (fun g => (facePairsOfElem m g).countP P)).sum := by
  unfold facePairs
  induction (m.elems.filter (fun e => e.active)) with
  | nil => rfl
  | cons e rest ih =>
      rw [List.foldr_cons, List.countP_append, ih, List.map_cons, List.sum_cons]

theorem find?_eid_mem_nodup (e : JElem) :
    ∀ l : List JElem, (l.map JElem.eid).Nodup → e ∈ l →
      l.find? (fun x => x.eid == e.eid) = some e := by
  intro l
  induction l with
  | nil => intro _ h; cases h
  | cons g rest ih =>
      intro hnd hmem
      rw [List.map_cons, List.nodup_cons] at hnd
      by_cases hge : g.eid = e.eid
      · have hgeq : g = e := by
          cases List.mem_cons.mp hmem with
          | inl h => exact h.symm
          | inr h =>
              exfalso
              exact hnd.1 (hge ▸ List.mem_map_of_mem JElem.eid h)
        rw [List.find?_cons_of_pos _ (by simp [hge])]
        rw [hgeq]
      · rw [List.find?_cons_of_neg _ (by simp [hge])]
        refine ih hnd.2 ?_
        cases List.mem_cons.mp hmem with
        | inl h => exact absurd (congrArg JElem.eid h.symm) hge
        | inr h => exact h

theorem jmesh_find_self (m : JMesh) (hnd : (m.elems.map JElem.eid).Nodup)
    (e : JElem) (he : e ∈ m.elems) : m.find e.eid = some e :=
  find?_eid_mem_nodup e m.elems hnd he

theorem sum_map_zero_of (cz : JElem → Nat) :
    ∀ l : List JElem, (∀ g ∈ l, cz g = 0) → (l.map cz).sum = 0 := by
  intro l
  induction l with
  | nil => intro _; rfl
  | cons g rest ih =>
      intro hz
      rw [List.map_cons, List.sum_cons, hz g (List.mem_cons_self g rest), ih]
      intro x hx
      exact hz x (List.mem_cons_of_mem g hx)

theorem sum_map_single (cz : JElem → Nat) (f : JElem) :
    ∀ l : List JElem, (l.map JElem.eid).Nodup → f ∈ l →
      (∀ g ∈ l, g.eid ≠ f.eid → cz g = 0) → (l.map cz).sum = cz f := by
  intro l
  induction l with
  | nil => intro _ h; cases h
  | cons g rest ih =>
      intro hnd hmem hz
      rw [List.map_cons, List.nodup_cons] at hnd
      rw [List.map_cons, List.sum_cons]
      by_cases hgf : g.eid = f.eid
      · have hgeq : g = f := by
          cases List.mem_cons.mp hmem with
          | inl h => exact h.symm
          | inr h =>
              exfalso
              exact hnd.1 (hgf ▸ List.mem_map_of_mem JElem.eid h)
        rw [hgeq]
        have hzero : (rest.map cz).sum = 0 := by
          apply sum_map_zero_of
          intro x hx
          apply hz x (List.mem_cons_of_mem g hx)
          intro hxf
          exact hnd.1 (hgf ▸ hxf ▸ List.mem_map_of_mem JElem.eid hx)
        rw [hzero]
        omega
      · have hfr : f ∈ rest := by
          cases List.mem_cons.mp hmem with
          | inl h => exact absurd (congrArg JElem.eid h.symm) hgf
          | inr h => exact h
        rw [hz g (List.mem_cons_self g rest) hgf, ih hnd.2 hfr
          (fun x hx hxf => hz x (List.mem_cons_of_mem g hx) hxf)]
        omega

theorem sum_map_double (cz : JElem → Nat) (e f : JElem) (hef : e.eid ≠ f.eid) :
    ∀ l : List JElem, (l.map JElem.eid).Nodup → e ∈ l → f ∈ l →
      (∀ g ∈ l, g.eid ≠ e.eid → g.eid ≠ f.eid → cz g = 0) →
      (l.map cz).sum = cz e + cz f := by
  intro l
  induction l with
  | nil => intro _ h; cases h
  | cons g rest ih =>
      intro hnd hme hmf hz
      rw [List.map_cons, List.nodup_cons] at hnd
      rw [List.map_cons, List.sum_cons]
      by_cases hge : g.eid = e.eid
      · have hgeq : g = e := by
          cases List.mem_cons.mp hme with
          | inl h => exact h.symm
          | inr h => exact absurd (hge ▸ List.mem_map_of_mem JElem.eid h) hnd.1
        have hfr : f ∈ rest := by
          cases List.mem_cons.mp hmf with
          | inl h =>
              exact absurd ((congrArg JElem.eid h).trans hge).symm hef
          | inr h => exact h
        rw [hgeq]
        rw [sum_map_single cz f rest hnd.2 hfr (fun x hx hxf => by
          refine hz x (List.mem_cons_of_mem g hx) ?_ hxf
          intro hxe
          exact hnd.1 (hge ▸ hxe ▸ List.mem_map_of_mem JElem.eid hx))]
      · by_cases hgf : g.eid = f.eid
        · have hgeq : g = f := by
            cases List.mem_cons.mp hmf with
            | inl h => exact h.symm
            | inr h => exact absurd (hgf ▸ List.mem_map_of_mem JElem.eid h) hnd.1
          have her : e ∈ rest := by
            cases List.mem_cons.mp hme with
            | inl h => exact absurd (congrArg JElem.eid h).symm hge
            | inr h => exact h
          rw [hgeq]
          rw [sum_map_single cz e rest hnd.2 her (fun x hx hxe => by
            refine hz x (List.mem_cons_of_mem g hx) hxe ?_
            intro hxf
            exact hnd.1 (hgf ▸ hxf ▸ List.mem_map_of_mem JElem.eid hx))]
          omega
        · have her : e ∈ rest := by
            cases List.mem_cons.mp hme with
            | inl h => exact absurd (congrArg JElem.eid h.symm) hge
            | inr h => exact h
          have hfr : f ∈ rest := by
            cases List.mem_cons.mp hmf with
            | inl h => exact absurd (congrArg JElem.eid h.symm) hgf
            | inr h => exact h
          rw [hz g (List.mem_cons_self g rest) hge hgf,
            ih hnd.2 her hfr (fun x hx => hz x (List.mem_cons_of_mem g hx))]
          omega

/-- Claim C10: in `JumpErrorEstimator::estimate_error`, each shared face
between two face-adjacent active elements is integrated exactly once per
call.  With `e` the element listing `f` as neighbor (once) on the shared
side: for same-level neighbors each lists the other and only the element with
the smaller id integrates (condition `e_id < f_id`); for different-level
neighbors only the finer element integrates (condition
`f->level() < e->level()`; the coarser element's neighbor pointer there is
the finer one's inactive ancestor, so it does not list `e`).  Hence the face
appears exactly once in the integrated-face list, and no internal face's
contribution is accumulated twice. -/
theorem C10_internal_face_integrated_once (m : JMesh) (e f : JElem)
    (hnd : (m.elems.map JElem.eid).Nodup)
    (he : e ∈ m.elems) (hf : f ∈ m.elems)
    (hea : e.active = true) (hfa : f.active = true)
    (hef : e.eid ≠ f.eid)
    (hce : e.nbrs.count (some f.eid) = 1)
    (hcase : (f.lvl = e.lvl ∧ f.nbrs.count (some e.eid) = 1) ∨
             (f.lvl < e.lvl ∧ f.nbrs.count (some e.eid) = 0)) :
    (facePairs m).countP (matchPair e.eid f.eid) = 1 := by
  have hfe : f.eid ≠ e.eid := fun h => hef h.symm
  have hfinde : m.find e.eid = some e := jmesh_find_self m hnd e he
  have hfindf : m.find f.eid = some f := jmesh_find_self m hnd f hf
  rw [countP_facePairs]
  have hndf : ((m.elems.filter (fun x => x.active)).map JElem.eid).Nodup :=
    hnd.sublist (List.Sublist.map JElem.eid (List.filter_sublist m.elems))
  have hmef : e ∈ m.elems.filter (fun x => x.active) :=
    List.mem_filter.mpr ⟨he, hea⟩
  have hmff : f ∈ m.elems.filter (fun x => x.active) :=
    List.mem_filter.mpr ⟨hf, hfa⟩
  rw [sum_map_double (fun g => (facePairsOfElem m g).countP (matchPair e.eid f.eid))
    e f hef (m.elems.filter (fun x => x.active)) hndf hmef hmff
    (fun g _ hge hgf => by
      show (facePairsOfElem m g).countP (matchPair e.eid f.eid) = 0
      rw [facePairsOfElem_eq_sidePairs]
      exact countP_sidePairs_other m g e.eid f.eid hge hgf g.nbrs)]
  have hcze : (facePairsOfElem m e).countP (matchPair e.eid f.eid) =
      if integratesFace e f then 1 else 0 := by
    rw [facePairsOfElem_eq_sidePairs,
      countP_sidePairs_lister m e f f.eid hef hfindf e.nbrs, hce]
  have hczf : (facePairsOfElem m f).countP (matchPair e.eid f.eid) =
      if integratesFace f e then f.nbrs.count (some e.eid) else 0 := by
    rw [facePairsOfElem_eq_sidePairs,
      show matchPair e.eid f.eid = matchPair f.eid e.eid from
        funext (matchPair_comm e.eid f.eid),
      countP_sidePairs_lister m f e e.eid hfe hfinde f.nbrs]
  rw [hcze, hczf]
  rcases hcase with ⟨hlvl, hc1⟩ | ⟨hlt, hc0⟩
  · have h1 : integratesFace e f = decide (e.eid < f.eid) := by
      simp [integratesFace, hfa, hlvl]
    have h2 : integratesFace f e = decide (f.eid < e.eid) := by
      simp [integratesFace, hea, hlvl]
    rw [h1, h2, hc1]
    by_cases hlt2 : e.eid < f.eid
    · simp [hlt2, Nat.lt_asymm hlt2]
    · have hgt : f.eid < e.eid :=
        Nat.lt_of_le_of_ne (Nat.le_of_not_lt hlt2) hfe
      simp [hlt2, hgt]
  · have h1 : integratesFace e f = true := by
      simp [integratesFace, hlt]
    have h2 : integratesFace f e = false := by
      have hne : e.lvl ≠ f.lvl := fun h => Nat.lt_irrefl _ (h ▸ hlt)
      simp [integratesFace, hne, Nat.lt_asymm hlt]
    rw [h1, h2, hc0]
    simp

/-- Witness for C10: on the concrete two-element mesh (same level, mutual
neighbors, distinct ids 0 < 1) the shared face appears exactly once in the
integrated-face list. -/
theorem C10_internal_face_integrated_once_witness :
    (facePairs jmeshW).countP (matchPair 0 1) = 1 :=
  C10_internal_face_integrated_once jmeshW
    ⟨0, 0, true, [some 1]⟩ ⟨1, 0, true, [some 0]⟩
    (by decide) (by decide) (by decide) (by decide) (by decide) (by decide)
    (by decide) (Or.inl ⟨rfl, by decide⟩)

/-! ## AdjointRefinementEstimator::estimate_error element-wise indicators
(adjoint_refinement_estimator.C lines 457-596). -/

/-- One active fine-mesh element of the indicator loop: its element id and
its `dof_indices`, each dof paired with the node carrying it. -/
structure AElem where
  fid : Nat
  ndofs : List (Nat × Nat)
deriving DecidableEq, Repr

/-- The fine mesh as seen by the element-indicator code: the active local
elements (iteration order of `active_local_element_ptr_range`), the
parent links (`Elem::parent`, by element id), `number_h_refinements`, and
`Elem::find_point_neighbors` (by node id, returning fine element ids). -/
structure AMesh where
  elems : List AElem
  parentOf : Nat → Nat
  nhref : Nat
  pointNbrs : Nat → List Nat

/-- Walk `number_h_refinements` parent links up from a fine element to find
its owning coarse element's id (lines 564-574 and 497-508). -/
def coarseId (m : AMesh) (i : Nat) : Nat :=
  m.parentOf^[m.nhref] i

/-- The inner loop of the shared-count construction (lines 494-520): walk the
fine point neighbors, map each to its coarse parent id, and append it only if
it is not already recorded. -/
def coarseNeighborsOf (m : AMesh) (node : Nat) : List Nat :=
  (m.pointNbrs node).foldl
    (fun acc fe =>
      let cid := coarseId m fe
      if cid ∈ acc then acc else acc ++ [cid])
    []

/-- `shared_element_count[node]` (lines 522-525): the size of the
coarse-grid-neighbor list of the node. -/
def sharedElementCount (m : AMesh) (node : Nat) : Nat :=
  (coarseNeighborsOf m node).length

/-- The residual-dot-adjoint contribution of one element (lines 579-584):
the sum over its dof indices of residual times adjoint. -/
def elemContribution (res adj : Nat → ℚ) (e : AElem) : ℚ :=
  (e.ndofs.map (fun nd => res nd.2 * adj nd.2)).sum

/-- The element-indicator double loop (lines 551-596): for each QoI in the
set and each active local element, weight the element's residual-dot-adjoint
contribution and add its absolute value into `error_per_cell` at the coarse
parent's id.  No division by `shared_element_count` occurs anywhere in this
loop. -/
def indicatorPass (m : AMesh) (qois : List Nat) (weight : Nat → ℚ)
    (res : Nat → ℚ) (adj : Nat → Nat → ℚ) : Nat → ℚ :=
  qois.foldl
    (fun err q =>
      m.elems.foldl
        (fun err e =>
          addAt err (coarseId m e.fid)
            |weight q * elemContribution res (adj q) e|)
        err)
    (fun _ => 0)

/-- The indicator computation as the SPEC describes it (for refinement
comparison only): "double-counting at shared nodes corrected by dividing by
the count of distinct coarse-element neighbors sharing that node" - each
per-dof contribution divided by the shared count of the dof's node. -/
def elemContributionSpecDivided (m : AMesh) (res adj : Nat → ℚ) (e : AElem) : ℚ :=
  (e.ndofs.map
    (fun nd => res nd.2 * adj nd.2 / (sharedElementCount m nd.1 : ℚ))).sum

/-- The spec-described indicator pass with the per-node division applied (for
refinement comparison only). -/
def indicatorPassSpecDivided (m : AMesh) (qois : List Nat) (weight : Nat → ℚ)
    (res : Nat → ℚ) (adj : Nat → Nat → ℚ) : Nat → ℚ :=
  qois.foldl
    (fun err q =>
      m.elems.foldl
        (fun err e =>
          addAt err (coarseId m e.fid)
            |weight q * elemContributionSpecDivided m res (adj q) e|)
        err)
    (fun _ => 0)

/-- The concrete fine mesh falsifying the claimed division: two active fine
elements (ids 10 and 11) with distinct coarse parents (0 and 1) sharing node
100, which carries the single dof 7 in both elements. -/
def cmeshC2 : AMesh :=
  { elems := [⟨10, [(100, 7)]⟩, ⟨11, [(100, 7)]⟩],
    parentOf := fun i => if i = 10 then 0 else if i = 11 then 1 else i,
    nhref := 1,
    pointNbrs := fun n => if n = 100 then [10, 11] else [] }

/-- Counterexample for C2 as stated: with unit residual, adjoint and weight,
the code's indicator loop deposits |1*1| = 1 into coarse slot 0, while the
claimed computation (each contribution divided by the shared
coarse-element count 2 of node 100) would deposit 1/2; the two disagree. -/
theorem C2_shared_count_division_counterexample :
    indicatorPass cmeshC2 [0] (fun _ => 1) (fun _ => 1) (fun _ _ => 1) 0 = 1 ∧
    indicatorPassSpecDivided cmeshC2 [0] (fun _ => 1) (fun _ => 1)
      (fun _ _ => 1) 0 = 1 / 2 ∧
    indicatorPass cmeshC2 [0] (fun _ => 1) (fun _ => 1) (fun _ _ => 1) 0 ≠
      indicatorPassSpecDivided cmeshC2 [0] (fun _ => 1) (fun _ => 1)
        (fun _ _ => 1) 0 := by
  refine ⟨?_, ?_, ?_⟩
  · simp +decide [indicatorPass, cmeshC2, addAt, coarseId, elemContribution,
      Function.iterate_one]
  · simp +decide [indicatorPassSpecDivided, cmeshC2, addAt, coarseId,
      elemContributionSpecDivided, sharedElementCount, coarseNeighborsOf,
      Function.iterate_one]
  · intro h
    rw [show indicatorPass cmeshC2 [0] (fun _ => 1) (fun _ => 1)
          (fun _ _ => 1) 0 = 1 by
        simp +decide [indicatorPass, cmeshC2, addAt, coarseId,
          elemContribution, Function.iterate_one],
      show indicatorPassSpecDivided cmeshC2 [0] (fun _ => 1) (fun _ => 1)
          (fun _ _ => 1) 0 = 1 / 2 by
        simp +decide [indicatorPassSpecDivided, cmeshC2, addAt, coarseId,
          elemContributionSpecDivided, sharedElementCount, coarseNeighborsOf,
          Function.iterate_one]] at h
    norm_num at h

theorem foldl_addAt_coarse_eval (m : AMesh) (v : AElem → ℚ) :
    ∀ (es : List AElem) (err : Nat → ℚ) (i : Nat),
      (es.foldl (fun err e => addAt err (coarseId m e.fid) (v e)) err) i =
        err i + ((es.filter (fun e => coarseId m e.fid == i)).map v).sum := by
  intro es
  induction es with
  | nil => intro err i; simp
  | cons e rest ih =>
      intro err i
      rw [List.foldl_cons, ih, List.filter_cons]
      by_cases hc : coarseId m e.fid = i
      · rw [if_pos (by simp [hc]), List.map_cons, List.sum_cons]
        unfold addAt
        rw [if_pos hc.symm]
        ring
      · rw [if_neg (by simp [hc])]
        unfold addAt
        rw [if_neg (fun h => hc h.symm)]

theorem foldl_qoi_eval (m : AMesh) (weight : Nat → ℚ) (res : Nat → ℚ)
    (adj : Nat → Nat → ℚ) :
    ∀ (qs : List Nat) (err : Nat → ℚ) (i : Nat),
      (qs.foldl
        (fun err q =>
          m.elems.foldl
            (fun err e =>
              addAt err (coarseId m e.fid)
                |weight q * elemContribution res (adj q) e|)
            err)
        err) i =
      err i + (qs.map (fun q =>
        ((m.elems.filter (fun e => coarseId m e.fid == i)).map
          (fun e => |weight q * elemContribution res (adj q) e|)).sum)).sum := by
  intro qs
  induction qs with
  | nil => intro err i; simp
  | cons q rest ih =>
      intro err i
      rw [List.foldl_cons, ih, List.map_cons, List.sum_cons,
        foldl_addAt_coarse_eval m
          (fun e => |weight q * elemContribution res (adj q) e|) m.elems err i]
      ring

theorem coarseNeighborsOf_foldl_spec (m : AMesh) :
    ∀ (l : List Nat) (acc : List Nat), acc.Nodup →
      (l.foldl
        (fun acc fe =>
          let cid := coarseId m fe
          if cid ∈ acc then acc else acc ++ [cid]) acc).Nodup ∧
      (∀ c, c ∈ l.foldl
          (fun acc fe =>
            let cid := coarseId m fe
            if cid ∈ acc then acc else acc ++ [cid]) acc ↔
        c ∈ acc ∨ c ∈ l.map (coarseId m)) := by
  intro l
  induction l with
  | nil =>
      intro acc hnd
      exact ⟨hnd, fun c => by simp⟩
  | cons fe rest ih =>
      intro acc hnd
      rw [List.foldl_cons]
      by_cases hmem : coarseId m fe ∈ acc
      · rw [if_pos hmem]
        obtain ⟨h1, h2⟩ := ih acc hnd
        refine ⟨h1, fun c => ?_⟩
        rw [h2 c, List.map_cons, List.mem_cons]
        constructor
        · rintro (h | h)
          · exact Or.inl h
          · exact Or.inr (Or.inr h)
        · rintro (h | h | h)
          · exact Or.inl h
          · exact Or.inl (h ▸ hmem)
          · exact Or.inr h
      · rw [if_neg hmem]
        have hnd2 : (acc ++ [coarseId m fe]).Nodup := by
          rw [List.nodup_append]
          refine ⟨hnd, List.nodup_singleton _, ?_⟩
          intro a ha hb
          rw [List.mem_singleton] at hb
          exact hmem (hb ▸ ha)
        obtain ⟨h1, h2⟩ := ih (acc ++ [coarseId m fe]) hnd2
        refine ⟨h1, fun c => ?_⟩
        rw [h2 c, List.map_cons, List.mem_cons, List.mem_append,
          List.mem_singleton]
        tauto

/-- Claim C2 amended: in `AdjointRefinementEstimator::estimate_error`, each
active fine element's residual-dot-adjoint contribution (QoI-weighted, in
absolute value) is accumulated into `error_per_cell` at the id of its coarse
parent, found by walking up `number_h_refinements` parent links; the
shared-node count map (the number of distinct coarse-element neighbors
sharing each node) is computed exactly as described, but it is never applied:
no division by it occurs in the indicator accumulation. -/
theorem C2_indicator_scatter_no_division (m : AMesh) (qois : List Nat)
    (weight : Nat → ℚ) (res : Nat → ℚ) (adj : Nat → Nat → ℚ) :
    (∀ i, indicatorPass m qois weight res adj i =
      (qois.map (fun q =>
        ((m.elems.filter (fun e => coarseId m e.fid == i)).map
          (fun e => |weight q * elemContribution res (adj q) e|)).sum)).sum) ∧
    (∀ node, (coarseNeighborsOf m node).Nodup ∧
      (∀ c, c ∈ coarseNeighborsOf m node ↔
        c ∈ (m.pointNbrs node).map (coarseId m)) ∧
      sharedElementCount m node = (coarseNeighborsOf m node).length) := by
  constructor
  · intro i
    unfold indicatorPass
    rw [foldl_qoi_eval m weight res adj qois (fun _ => 0) i]
    simp
  · intro node
    obtain ⟨h1, h2⟩ :=
      coarseNeighborsOf_foldl_spec m (m.pointNbrs node) [] List.nodup_nil
    refine ⟨h1, fun c => ?_, rfl⟩
    rw [show coarseNeighborsOf m node =
      (m.pointNbrs node).foldl
        (fun acc fe =>
          let cid := coarseId m fe
          if cid ∈ acc then acc else acc ++ [cid]) [] from rfl]
    rw [h2 c]
    simp

/-! ## AdjointRefinementEstimator::estimate_error backup/restore frame
(adjoint_refinement_estimator.C lines 91-239 and 598-686).  The external
phases - the coarse adjoint solve and flux-QoI evaluation before the backup
(lines 122-188, `pre`), and the refinement / fine solves / indicator
computation between backup and restoration (lines 242-640, `mid`) - are
opaque state transformers. -/

/-- The tracked portion of the System/Mesh state: the solution-projection
settings, each adjoint vector's preservation flag (by QoI index), the
solution and current_local_solution contents, the named system vectors, the
mesh partitioner, and the renumbering flag.  Vector contents are opaque
values, modelled as integers. -/
structure EstState where
  proj_on_reinit : Bool
  proj_with_constraints : Bool
  preservation : Nat → Bool
  solution : Int
  current_local : Int
  vectors : List (Nat × Int)
  partitioner : Option Int
  allow_renumbering : Bool

/-- The backup/restore skeleton of `AdjointRefinementEstimator::estimate_error`:
run the pre-backup phase `pre` (coarse adjoint solve and flux-QoI residual
evaluation); clone all named vectors, the solution and the local solution
(lines 190-197); save each in-set QoI's preservation flag and force it true
(204-219); save and set the projection settings (221-232); release the
partitioner and disable renumbering (235-239); run the refine/solve/estimate
phase `mid`; then restore the settings (643-654), the solution vectors
(656-658), every currently-present named vector found in the backup
(660-675), and the partitioner and renumbering flag (677-679). -/
def estimate_error_frame (pre mid : EstState → EstState) (qois : List Nat)
    (s0 : EstState) : EstState :=
  let s1 := pre s0
  let bkVecs := s1.vectors
  let bkSol := s1.solution
  let bkCls := s1.current_local
  let bkPres := s1.preservation
  let s2 := { s1 with
    preservation := fun j => if j ∈ qois then true else s1.preservation j }
  let bkProj := s2.proj_on_reinit
  let s3 := { s2 with proj_on_reinit := true }
  let bkConstraints := s3.proj_with_constraints
  let s4 := { s3 with proj_with_constraints := false }
  let bkPart := s4.partitioner
  let s5 := { s4 with partitioner := none }
  let bkRenumber := s5.allow_renumbering
  let s6 := { s5 with allow_renumbering := false }
  let s7 := mid s6
  { s7 with
    proj_on_reinit := bkProj,
    proj_with_constraints := bkConstraints,
    preservation := fun j => if j ∈ qois then bkPres j else s7.preservation j,
    solution := bkSol,
    current_local := bkCls,
    vectors := s7.vectors.map (fun nv =>
      match bkVecs.lookup nv.1 with
      | some bv => (nv.1, bv)
      | none => nv),
    partitioner := bkPart,
    allow_renumbering := bkRenumber }

theorem lookup_restore_map (bk : List (Nat × Int)) :
    ∀ (cur : List (Nat × Int)) (n : Nat) (bv : Int),
      bk.lookup n = some bv → (cur.lookup n).isSome = true →
      ((cur.map (fun nv =>
        match bk.lookup nv.1 with
        | some bv2 => (nv.1, bv2)
        | none => nv)).lookup n) = some bv := by
  intro cur
  induction cur with
  | nil => intro n bv _ h; simp [List.lookup] at h
  | cons p rest ih =>
      intro n bv hbk hcur
      rw [List.map_cons]
      by_cases hn : p.1 = n
      · have hbk2 : bk.lookup p.1 = some bv := hn ▸ hbk
        rw [hbk2]
        simp [List.lookup, hn]
      · have hkey : ∀ q : Nat × Int,
            ((match bk.lookup q.1 with
              | some bv2 => (q.1, bv2)
              | none => q) : Nat × Int).1 = q.1 := by
          intro q
          cases bk.lookup q.1 with
          | none => rfl
          | some bv2 => rfl
        rw [List.lookup] at hcur ⊢
        rw [hkey p]
        have hne : (n == p.1) = false := by
          simp only [beq_eq_false_iff_ne, ne_eq]
          exact fun h => hn h.symm
        rw [hne] at hcur ⊢
        exact ih n bv hbk hcur

/-- Claim C8 amended: after `estimate_error` returns, every tracked setting
and vector equals its value at the backup point (the state produced by the
pre-backup phase: the coarse adjoint solve and flux-QoI evaluation of lines
122-188): the projection settings, the in-set adjoint preservation flags, the
solution and current_local_solution, every named vector present at backup
time and still present at restoration time, the mesh partitioner, and the
renumbering flag - whatever the refine/solve/estimate phase `mid` did,
provided `mid` does not remove named vectors.  These equal the pre-call
values exactly when the pre-backup phase left the state unchanged. -/
theorem C8_restoration_to_backup_point (pre mid : EstState → EstState)
    (qois : List Nat) (s0 : EstState)
    (hmid : ∀ (s : EstState) (n : Nat),
      (s.vectors.lookup n).isSome = true →
      (((mid s).vectors.lookup n).isSome = true)) :
    (estimate_error_frame pre mid qois s0).proj_on_reinit =
      (pre s0).proj_on_reinit ∧
    (estimate_error_frame pre mid qois s0).proj_with_constraints =
      (pre s0).proj_with_constraints ∧
    (∀ j ∈ qois, (estimate_error_frame pre mid qois s0).preservation j =
      (pre s0).preservation j) ∧
    (estimate_error_frame pre mid qois s0).solution = (pre s0).solution ∧
    (estimate_error_frame pre mid qois s0).current_local =
      (pre s0).current_local ∧
    (∀ n v, (pre s0).vectors.lookup n = some v →
      (estimate_error_frame pre mid qois s0).vectors.lookup n = some v) ∧
    (estimate_error_frame pre mid qois s0).partitioner =
      (pre s0).partitioner ∧
    (estimate_error_frame pre mid qois s0).allow_renumbering =
      (pre s0).allow_renumbering ∧
    (pre s0 = s0 →
      (estimate_error_frame pre mid qois s0).proj_on_reinit =
        s0.proj_on_reinit ∧
      (estimate_error_frame pre mid qois s0).solution = s0.solution ∧
      (∀ n v, s0.vectors.lookup n = some v →
        (estimate_error_frame pre mid qois s0).vectors.lookup n = some v)) := by
  have hvecs : ∀ n v, (pre s0).vectors.lookup n = some v →
      (estimate_error_frame pre mid qois s0).vectors.lookup n = some v := by
    intro n v hv
    apply lookup_restore_map (pre s0).vectors _ n v hv
    apply hmid
    show (((pre s0).vectors).lookup n).isSome = true
    rw [hv]
    rfl
  refine ⟨rfl, rfl, ?_, rfl, rfl, hvecs, rfl, rfl, ?_⟩
  · intro j hj
    show (if j ∈ qois then (pre s0).preservation j else _) =
      (pre s0).preservation j
    rw [if_pos hj]
  · intro hpre
    exact ⟨by rw [show (estimate_error_frame pre mid qois s0).proj_on_reinit =
        (pre s0).proj_on_reinit from rfl, hpre],
      by rw [show (estimate_error_frame pre mid qois s0).solution =
        (pre s0).solution from rfl, hpre],
      fun n v hv => hvecs n v (by rw [hpre]; exact hv)⟩

/-- The concrete pre-call state for the C8 counterexample: one named system
vector (name 0, the "RHS Vector", value 5). -/
def s0C8 : EstState :=
  { proj_on_reinit := false, proj_with_constraints := true,
    preservation := fun _ => false,
    solution := 3, current_local := 4,
    vectors := [(0, 5)],
    partitioner := some 9, allow_renumbering := true }

/-- The pre-backup phase of the flux-QoI branch: the assembly at line 161
overwrites the pre-existing "RHS Vector" (name 0) with the flux residual
(value 7) before the vector backup at line 191 is taken. -/
def preFluxC8 : EstState → EstState := fun s =>
  { s with vectors := s.vectors.map (fun nv => if nv.1 = 0 then (0, 7) else nv) }

/-- Counterexample for C8 as stated: with a flux-QoI pre-backup assembly that
rewrites the previously-existing vector 0 from 5 to 7, estimate_error returns
with vector 0 equal to 7, not its pre-call value 5. -/
theorem C8_precall_value_counterexample :
    (estimate_error_frame preFluxC8 id [] s0C8).vectors.lookup 0 = some 7 ∧
    s0C8.vectors.lookup 0 = some 5 ∧
    (estimate_error_frame preFluxC8 id [] s0C8).vectors.lookup 0 ≠
      s0C8.vectors.lookup 0 := by
  refine ⟨rfl, rfl, ?_⟩
  intro h
  rw [show (estimate_error_frame preFluxC8 id [] s0C8).vectors.lookup 0 =
      some 7 from rfl] at h
  rw [show s0C8.vectors.lookup 0 = some 5 from rfl] at h
  exact absurd h (by decide)

/-- Witness for C8 amended: on the concrete flux-QoI run the solution,
renumbering flag and the overwritten vector are restored to their
backup-point values (= 3, true, and 7 respectively). -/
theorem C8_restoration_to_backup_point_witness :
    (estimate_error_frame preFluxC8 id [0] s0C8).solution = 3 ∧
    (estimate_error_frame preFluxC8 id [0] s0C8).vectors.lookup 0 = some 7 ∧
    (estimate_error_frame preFluxC8 id [0] s0C8).allow_renumbering = true :=
  ⟨(C8_restoration_to_backup_point preFluxC8 id [0] s0C8
      (fun _ _ h => h)).2.2.2.1.trans rfl,
   (C8_restoration_to_backup_point preFluxC8 id [0] s0C8
      (fun _ _ h => h)).2.2.2.2.2.1 0 7 rfl,
   (C8_restoration_to_backup_point preFluxC8 id [0] s0C8
      (fun _ _ h => h)).2.2.2.2.2.2.2.1.trans rfl⟩
